import Mathlib

/-!
Verification of the text-processing services of the pathshala server:
the PDF text cleanup pipeline (`pdf_service.py`) and the LLM
summarization service (`summarization_service.py`).

Texts are embedded as `List Char`.  Pure Python string operations are
translated operation by operation; the regular expressions of the source
are translated into equivalent explicit scanners (each scanner's doc
comment names the regex it implements).
-/

/-- Whitespace predicate of Python's `str.strip()` / `str.isspace()`:
ASCII whitespace together with the Unicode space and line separators
recognised by Python. -/
def pyWS (c : Char) : Bool :=
  c = ' ' || c = '\t' || c = '\n' || c = '\r' ||
  c.toNat = 0xB || c.toNat = 0xC ||
  c.toNat = 0x1C || c.toNat = 0x1D || c.toNat = 0x1E || c.toNat = 0x1F ||
  c.toNat = 0x85 || c.toNat = 0xA0 || c.toNat = 0x1680 ||
  (0x2000 ≤ c.toNat && c.toNat ≤ 0x200A) ||
  c.toNat = 0x2028 || c.toNat = 0x2029 || c.toNat = 0x202F ||
  c.toNat = 0x205F || c.toNat = 0x3000

/-- Python `str.lstrip()`. -/
def pyStripLeft (l : List Char) : List Char := l.dropWhile pyWS

/-- Python `str.rstrip()`. -/
def pyStripRight (l : List Char) : List Char := (l.reverse.dropWhile pyWS).reverse

/-- Python `str.strip()`. -/
def pyStrip (l : List Char) : List Char := pyStripRight (pyStripLeft l)

/-- Python `text.split("\n\n")`: split on the two-character paragraph
separator, scanning left to right. -/
def splitPars : List Char → List (List Char)
  | [] => [[]]
  | '\n' :: '\n' :: rest => [] :: splitPars rest
  | c :: rest =>
    match splitPars rest with
    | [] => [[c]]
    | h :: t => (c :: h) :: t

/-- Python `"\n\n".join(...)`. -/
def joinPar : List (List Char) → List Char
  | [] => []
  | [p] => p
  | p :: q :: rest => p ++ '\n' :: '\n' :: joinPar (q :: rest)

/-! ## summarization_service.py -/

/-- `MAX_CHUNK_CHARS` of summarization_service.py. -/
def MAX_CHUNK_CHARS : Nat := 6000

/-- `MAX_RETRIES` of summarization_service.py. -/
def MAX_RETRIES : Nat := 2

/-- `RETRY_BASE_DELAY` of summarization_service.py (in seconds). -/
def RETRY_BASE_DELAY : Nat := 3

/-- Loop body of `SummarizationService._split_text`, iterating over the
paragraphs with the accumulated current chunk and its character count. -/
def splitTextAux (maxC : Nat) : List (List Char) → List (List Char) → Nat → List (List Char)
  | [], cur, _ => if cur = [] then [] else [joinPar cur]
  | p :: rest, cur, curLen =>
    if curLen + (p.length + 2) > maxC ∧ cur ≠ [] then
      joinPar cur :: splitTextAux maxC rest [p] (p.length + 2)
    else
      splitTextAux maxC rest (cur ++ [p]) (curLen + (p.length + 2))

/-- `SummarizationService._split_text`, with the chunk-size constant
(`MAX_CHUNK_CHARS` in the source) as an explicit parameter `maxC`. -/
def split_text (maxC : Nat) (text : List Char) : List (List Char) :=
  if text.length ≤ maxC then [text] else splitTextAux maxC (splitPars text) [] 0

/-- The fixed system prompt of `SummarizationService._build_payload`
(the source writes it as four adjacent string literals). -/
def systemPrompt : List Char :=
  "You are an expert document summarizer. Provide a clear, concise, and well-structured summary of the given text. Highlight the key points, main arguments, and important findings. Use bullet points for clarity when appropriate.".toList

/-- Default user prompt of `SummarizationService._build_payload`. -/
def defaultPrompt : List Char :=
  "Please summarize the following document text:".toList

/-- A chat-completion request payload as assembled by `_build_payload`
(the two messages: the fixed system prompt and the user message). -/
structure Payload where
  model : List Char
  system : List Char
  user : List Char
deriving DecidableEq

/-- `SummarizationService._build_payload`: the user message is
`f"{user_prompt}\n\n{text}"` where `user_prompt` is the optional custom
prompt or the default. -/
def build_payload (model : List Char) (text : List Char) (prompt : Option (List Char)) : Payload :=
  { model := model, system := systemPrompt,
    user := prompt.getD defaultPrompt ++ '\n' :: '\n' :: text }

/-- The per-chunk prompt `f"Summarize this section (part {i + 1} of {n}):"`
used by `summarize` for chunk index `i` of `n`. -/
def chunkPrompt (i n : Nat) : List Char :=
  "Summarize this section (part ".toList ++ (Nat.repr (i + 1)).toList ++
  " of ".toList ++ (Nat.repr n).toList ++ "):".toList

/-- The combination prompt of `summarize` (two adjacent string literals
in the source). -/
def combinePrompt : List Char :=
  "The following are summaries of different sections of the same document. Combine them into a single coherent summary:".toList

/-- Result of `summarize`: the `summary` and `chunks_processed` fields of
the returned dict (the `platform` and `model` fields are echoes of the
configuration and are not modelled). -/
structure SummaryResult where
  summary : List Char
  chunks_processed : Nat
deriving DecidableEq

/-- `SummarizationService.summarize` for a fixed, validly configured
platform.  The external chat-completion capability is abstracted as a
pure oracle `llm` mapping each request payload to the returned message
content; alongside the result, the list of issued completion calls is
returned (in call order) so call counts and prompts can be inspected.
The platform lookup `_get_platform_config` (which runs after the
empty-input check) is abstracted into the `model` parameter.  The
chunk-size constant is the explicit parameter `maxC` (`MAX_CHUNK_CHARS`
in the source). -/
def summarizeModel (maxC : Nat) (model : List Char) (llm : Payload → List Char)
    (prompt : Option (List Char)) (text : List Char) : SummaryResult × List Payload :=
  if pyStrip text = [] then (⟨[], 0⟩, [])
  else
    let chunks := split_text maxC text
    if chunks.length = 1 then
      let p := build_payload model (chunks.headD []) prompt
      (⟨pyStrip (llm p), 1⟩, [p])
    else
      let n := chunks.length
      let calls := chunks.enum.map (fun pr => build_payload model pr.2 (some (chunkPrompt pr.1 n)))
      let parts := calls.map (fun p => pyStrip (llm p))
      let pc := build_payload model (joinPar parts) (some combinePrompt)
      (⟨pyStrip (llm pc), n⟩, calls ++ [pc])

/-- One HTTP response of the chat-completions API, as consumed by
`_call_llm`: the status code, the `choices` list (each choice reduced to
its `message.content`), and the response body text. -/
structure Response where
  status : Nat
  choices : List (List Char)
  body : List Char

/-- The error raised by `_call_llm`:
`RuntimeError("LLM returned no choices in the response.")` or
`RuntimeError(f"LLM API returned {status}: {detail}")`.  `fellThrough`
models the (unreachable) completion of the retry loop, where the Python
function would return `None`. -/
inductive LLMError where
  | noChoices
  | apiError (status : Nat) (body : List Char)
  | fellThrough
deriving DecidableEq

/-- Outcome of `_call_llm`: the returned content or raised error, the
number of attempts made, and the list of backoff delays slept (seconds),
in order. -/
structure CallOutcome where
  result : Except LLMError (List Char)
  attempts : Nat
  delays : List Nat

/-- The `for attempt in range(MAX_RETRIES + 1)` loop of `_call_llm`:
`resp` gives the response to the request of each attempt. -/
def callLoop (resp : Nat → Response) : List Nat → List Nat → CallOutcome
  | [], ds => ⟨Except.error LLMError.fellThrough, MAX_RETRIES + 1, ds⟩
  | a :: rest, ds =>
    if (resp a).status = 200 then
      match (resp a).choices with
      | [] => ⟨Except.error LLMError.noChoices, a + 1, ds⟩
      | c :: _ => ⟨Except.ok c, a + 1, ds⟩
    else if (resp a).status = 429 ∧ a < MAX_RETRIES then
      callLoop resp rest (ds ++ [RETRY_BASE_DELAY * 2 ^ a])
    else
      ⟨Except.error (LLMError.apiError (resp a).status (resp a).body), a + 1, ds⟩

/-- `SummarizationService._call_llm`, with the per-attempt responses
abstracted as `resp`. -/
def call_llm (resp : Nat → Response) : CallOutcome :=
  callLoop resp (List.range (MAX_RETRIES + 1)) []

/-- Index of the decisive attempt of `_call_llm`: the first attempt whose
response is not a 429, or the last attempt (`MAX_RETRIES`) when every
earlier response was a 429. -/
def decisiveIdx (resp : Nat → Response) : Nat :=
  if (resp 0).status ≠ 429 then 0 else if (resp 1).status ≠ 429 then 1 else 2

/-! ## pdf_service.py -/

/-- Pointwise model of `unicodedata.normalize("NFKC", ...)` for the
characters this service handles: NFKC is the identity on ASCII, and the
non-identity entries below are the NFKC decompositions (per the Unicode
character database) of the non-ASCII characters appearing in the
service's replacement table.  Combining sequences are not modelled; the
development only evaluates this stage on texts without them. -/
def nfkcChar (c : Char) : List Char :=
  if c = '‑' then ['‐']
  else if c = '\u00a0' || c = '\u2002' || c = '\u2003' || c = '\u2009' then [' ']
  else if c = '…' then ['.', '.', '.']
  else if c = '™' then ['T', 'M']
  else if c = '½' then ['1', '⁄', '2']
  else if c = '¼' then ['1', '⁄', '4']
  else if c = '¾' then ['3', '⁄', '4']
  else if c = '²' then ['2']
  else if c = '³' then ['3']
  else [c]

/-- NFKC normalization of a text, applied characterwise. -/
def nfkc (l : List Char) : List Char := (l.map nfkcChar).flatten

/-- Python `text.replace(old, new)` for a single-character pattern. -/
def replaceChar (old : Char) (new : List Char) (l : List Char) : List Char :=
  (l.map (fun c => if c = old then new else [c])).flatten

/-- The `replacements` table of `_normalize_unicode`, in source order.
Note: in the source file the four "curly double quote" keys and the two
"curly single quote" keys are literally the ASCII characters `"` and `'`
(mojibake in the source); Python collapses the duplicate dict keys, so
the table carries one self-mapping for `"` and one for `'`, and no entry
for the actual curly quotes U+2018/U+2019/U+201C/U+201D. -/
def replacements : List (Char × List Char) :=
  [ ('"', ['"']), ('„', ['"']), ('‟', ['"']),
    ('\'', ['\'']), ('‚', ['\'']), ('‛', ['\'']),
    ('«', ['"']), ('»', ['"']),
    ('—', ['-']), ('–', ['-']), ('−', ['-']), ('‐', ['-']), ('‑', ['-']),
    ('\u00a0', [' ']), ('\u2002', [' ']), ('\u2003', [' ']), ('\u2009', [' ']),
    ('\u200b', []), ('\ufeff', []),
    ('•', ['-']), ('·', ['-']), ('●', ['-']), ('○', ['-']),
    ('■', ['-']), ('□', ['-']), ('▪', ['-']), ('▫', ['-']),
    ('►', ['-']), ('▸', ['-']), ('‣', ['-']),
    ('…', ['.', '.', '.']),
    ('×', ['x']), ('÷', ['/']),
    ('™', []), ('®', []), ('©', []),
    ('°', " degrees ".toList),
    ('€', "EUR ".toList), ('£', "GBP ".toList), ('¥', "JPY ".toList),
    ('½', "1/2".toList), ('¼', "1/4".toList), ('¾', "3/4".toList),
    ('²', ['2']), ('³', ['3']) ]

/-- `PDFService._normalize_unicode`: NFKC normalization followed by the
sequential character replacements of the table. -/
def normalize_unicode (l : List Char) : List Char :=
  replacements.foldl (fun acc pr => replaceChar pr.1 pr.2 acc) (nfkc l)

/-- Word character of the regexes (`\w`), modelled as ASCII alphanumerics
and underscore.  (Python's `\w` also matches non-ASCII letters; this
development only evaluates the scanners below on ASCII texts.) -/
def isWordChar (c : Char) : Bool := c.isAlphanum || c = '_'

/-- Scanner for `re.sub(r"(\w+)-\s*\n\s*(\w+)", r"\1\2", text)` of
`_fix_hyphenated_words`: a word run followed by `-`, then a whitespace
run containing a newline, then a word run, is replaced by the two word
runs joined.  `fuel` bounds the recursion (one unit per step; the list
length always suffices). -/
def fixHyphensAux : Nat → List Char → List Char
  | 0, l => l
  | _, [] => []
  | fuel + 1, c :: rest =>
    if isWordChar c then
      let run := c :: rest.takeWhile isWordChar
      let after := rest.dropWhile isWordChar
      match after with
      | '-' :: rest2 =>
        let ws := rest2.takeWhile pyWS
        let rest3 := rest2.dropWhile pyWS
        if '\n' ∈ ws ∧ rest3 ≠ [] ∧ isWordChar (rest3.headD ' ') then
          run ++ rest3.takeWhile isWordChar ++ fixHyphensAux fuel (rest3.dropWhile isWordChar)
        else run ++ '-' :: fixHyphensAux fuel rest2
      | _ => run ++ fixHyphensAux fuel after
    else c :: fixHyphensAux fuel rest

/-- `PDFService._fix_hyphenated_words`. -/
def fix_hyphenated_words (l : List Char) : List Char := fixHyphensAux l.length l

/-- Python `text.split("\n")`. -/
def splitLines : List Char → List (List Char)
  | [] => [[]]
  | c :: rest =>
    if c = '\n' then [] :: splitLines rest
    else
      match splitLines rest with
      | [] => [[c]]
      | h :: t => (c :: h) :: t

/-- Python `"\n".join(...)`. -/
def joinLines : List (List Char) → List Char
  | [] => []
  | [l] => l
  | l :: l2 :: rest => l ++ '\n' :: joinLines (l2 :: rest)

/-- `PDFService._remove_headers_footers`: with at least 20 lines, drop
every line whose stripped form is nonempty, shorter than 100 characters,
and occurs at least `max 3 (lines / 50)` times among the stripped lines. -/
def remove_headers_footers (t : List Char) : List Char :=
  let lines := splitLines t
  if lines.length < 20 then t
  else
    let threshold := max 3 (lines.length / 50)
    joinLines (lines.filter (fun line =>
      let s := pyStrip line
      !(decide (s ≠ []) &&
        decide (threshold ≤ lines.countP (fun l2 => decide (pyStrip l2 = s))) &&
        decide (s.length < 100))))

/-- Python `str.isdigit()` for ASCII digits (a nonempty all-digit string). -/
def pyIsDigit (s : List Char) : Bool := !s.isEmpty && s.all Char.isDigit

/-- Case-insensitive literal prefix: drops `pat` from the front of `s`
when it matches up to ASCII case. -/
def dropPrefixCI : List Char → List Char → Option (List Char)
  | [], s => some s
  | _ :: _, [] => none
  | p :: ps, c :: cs => if c.toLower = p.toLower then dropPrefixCI ps cs else none

/-- Matcher for `re.match(r"^(page\s*)?\d+(\s*of\s*\d+)?$", s, re.IGNORECASE)`. -/
def matchPageNum (s : List Char) : Bool :=
  let s1 := match dropPrefixCI "page".toList s with
    | some r => r.dropWhile pyWS
    | none => s
  let ds := s1.takeWhile Char.isDigit
  let r := s1.dropWhile Char.isDigit
  if ds.isEmpty then false
  else if r.isEmpty then true
  else
    match dropPrefixCI "of".toList (r.dropWhile pyWS) with
    | none => false
    | some r3 =>
      let r4 := r3.dropWhile pyWS
      !(r4.takeWhile Char.isDigit).isEmpty && (r4.dropWhile Char.isDigit).isEmpty

/-- Matcher for `re.match(r"^-\s*\d+\s*-$", s)`. -/
def matchDashNum (s : List Char) : Bool :=
  match s with
  | '-' :: rest =>
    let r1 := rest.dropWhile pyWS
    let ds := r1.takeWhile Char.isDigit
    let r3 := (r1.dropWhile Char.isDigit).dropWhile pyWS
    !ds.isEmpty && decide (r3 = ['-'])
  | _ => false

/-- `PDFService._remove_page_numbers`: drop every line whose stripped
form is all digits or matches one of the two page-number patterns. -/
def remove_page_numbers (t : List Char) : List Char :=
  joinLines ((splitLines t).filter (fun line =>
    let s := pyStrip line
    !(pyIsDigit s || matchPageNum s || matchDashNum s)))

/-- Applies `f` to each maximal run of non-whitespace characters,
leaving the whitespace between runs unchanged.  Used for the regexes of
`_remove_special_patterns` whose every element matches only
non-whitespace (`\S`, `@`, literals), so matches never span runs. -/
def mapRunsAux (f : List Char → List Char) : Nat → List Char → List Char
  | 0, l => l
  | _, [] => []
  | fuel + 1, c :: rest =>
    if pyWS c then c :: mapRunsAux f fuel rest
    else
      f (c :: rest.takeWhile (fun d => !pyWS d)) ++
        mapRunsAux f fuel (rest.dropWhile (fun d => !pyWS d))

/-- Run-wise application of `f` (see `mapRunsAux`). -/
def mapRuns (f : List Char → List Char) (l : List Char) : List Char :=
  mapRunsAux f l.length l

/-- Does the run start with `http://` or `https://` followed by at least
one (non-whitespace) character?  (`\S+` of the URL regex.) -/
def startsUrlTail (l : List Char) : Bool :=
  ("http://".toList.isPrefixOf l && !(l.drop 7).isEmpty) ||
  ("https://".toList.isPrefixOf l && !(l.drop 8).isEmpty)

/-- Within one non-whitespace run: `re.sub(r"https?://\S+", "")` keeps
the part before the leftmost URL start and removes the greedy rest. -/
def stripUrlRun : List Char → List Char
  | [] => []
  | c :: rest => if startsUrlTail (c :: rest) then [] else c :: stripUrlRun rest

/-- Does the run start with `www.` followed by at least one character? -/
def startsWwwTail (l : List Char) : Bool :=
  "www.".toList.isPrefixOf l && !(l.drop 4).isEmpty

/-- Within one non-whitespace run: `re.sub(r"www\.\S+", "")`. -/
def stripWwwRun : List Char → List Char
  | [] => []
  | c :: rest => if startsWwwTail (c :: rest) then [] else c :: stripWwwRun rest

/-- Is there a `.` in the list with at least one character before it
(`seen` carries whether a character was already passed) and at least one
after?  (`\.\S+` preceded by `\S+`, inside one run.) -/
def hasDotMidAux (seen : Bool) : List Char → Bool
  | [] => false
  | c :: rest =>
    if c = '.' then (seen && !rest.isEmpty) || hasDotMidAux true rest
    else hasDotMidAux true rest

/-- Does the run contain `\S+@\S+\.\S+`?  Since every element of the
email regex matches only non-whitespace, a run matches iff it contains
an `@` with at least one character before it and, after the `@`, a `.`
with at least one character on each side; the greedy `\S+`s then consume
the whole run. -/
def hasEmailAux (seen : Bool) : List Char → Bool
  | [] => false
  | c :: rest =>
    if c = '@' then (seen && hasDotMidAux false rest) || hasEmailAux true rest
    else hasEmailAux true rest

/-- Within one non-whitespace run: `re.sub(r"\S+@\S+\.\S+", "")` removes
the whole run when the email pattern occurs in it. -/
def emailRun (r : List Char) : List Char := if hasEmailAux false r then [] else r

/-- Character class `[\w\\]` of the Windows-path regex. -/
def isWinPathChar (c : Char) : Bool := isWordChar c || c = '\\'

/-- Scanner for `re.sub(r"[A-Za-z]:\\[\w\\]+", "", text)`. -/
def removeWinPathsAux : Nat → List Char → List Char
  | 0, l => l
  | _, [] => []
  | fuel + 1, c :: rest =>
    match rest with
    | ':' :: '\\' :: r2 =>
      if c.isAlpha && !(r2.takeWhile isWinPathChar).isEmpty then
        removeWinPathsAux fuel (r2.dropWhile isWinPathChar)
      else c :: removeWinPathsAux fuel rest
    | _ => c :: removeWinPathsAux fuel rest

/-- Character class `[\w/]` of the Unix-path regex. -/
def isUnixPathChar (c : Char) : Bool := isWordChar c || c = '/'

/-- Scanner for `re.sub(r"/[\w/]+\.\w+", "", text)`. -/
def removeUnixPathsAux : Nat → List Char → List Char
  | 0, l => l
  | _, [] => []
  | fuel + 1, c :: rest =>
    if c = '/' then
      if !(rest.takeWhile isUnixPathChar).isEmpty then
        match rest.dropWhile isUnixPathChar with
        | '.' :: r2 =>
          if !(r2.takeWhile isWordChar).isEmpty then
            removeUnixPathsAux fuel (r2.dropWhile isWordChar)
          else c :: removeUnixPathsAux fuel rest
        | _ => c :: removeUnixPathsAux fuel rest
      else c :: removeUnixPathsAux fuel rest
    else c :: removeUnixPathsAux fuel rest

/-- Scanner for `re.sub(r"\[?\d+\]", "", text)` (the "citation numbers"
substitution): an optional `[`, one or more digits, and a mandatory `]`. -/
def removeCitationsAux : Nat → List Char → List Char
  | 0, l => l
  | _, [] => []
  | fuel + 1, c :: rest =>
    if c = '[' then
      if !(rest.takeWhile Char.isDigit).isEmpty &&
          (rest.dropWhile Char.isDigit).headD ' ' = ']' then
        removeCitationsAux fuel (rest.dropWhile Char.isDigit).tail
      else '[' :: removeCitationsAux fuel rest
    else if c.isDigit then
      if (rest.dropWhile Char.isDigit).headD ' ' = ']' then
        removeCitationsAux fuel (rest.dropWhile Char.isDigit).tail
      else (c :: rest.takeWhile Char.isDigit) ++
        removeCitationsAux fuel (rest.dropWhile Char.isDigit)
    else c :: removeCitationsAux fuel rest

/-- Scanner for `re.sub(r"fig(ure)?\.?\s*\d+", "", text, flags=re.IGNORECASE)`. -/
def removeFigAux : Nat → List Char → List Char
  | 0, l => l
  | _, [] => []
  | fuel + 1, c :: rest =>
    match dropPrefixCI "fig".toList (c :: rest) with
    | some r1 =>
      let r2 := match dropPrefixCI "ure".toList r1 with
        | some ru => ru
        | none => r1
      let r3 := match r2 with
        | '.' :: t => t
        | _ => r2
      let r4 := r3.dropWhile pyWS
      if !(r4.takeWhile Char.isDigit).isEmpty then
        removeFigAux fuel (r4.dropWhile Char.isDigit)
      else c :: removeFigAux fuel rest
    | none => c :: removeFigAux fuel rest

/-- Scanner for `re.sub(r"table\s*\d+", "", text, flags=re.IGNORECASE)`. -/
def removeTableAux : Nat → List Char → List Char
  | 0, l => l
  | _, [] => []
  | fuel + 1, c :: rest =>
    match dropPrefixCI "table".toList (c :: rest) with
    | some r1 =>
      let r2 := r1.dropWhile pyWS
      if !(r2.takeWhile Char.isDigit).isEmpty then
        removeTableAux fuel (r2.dropWhile Char.isDigit)
      else c :: removeTableAux fuel rest
    | none => c :: removeTableAux fuel rest

/-- `PDFService._remove_special_patterns`: the eight substitutions in
source order. -/
def remove_special_patterns (t : List Char) : List Char :=
  let t1 := mapRuns stripUrlRun t
  let t2 := mapRuns stripWwwRun t1
  let t3 := mapRuns emailRun t2
  let t4 := removeWinPathsAux t3.length t3
  let t5 := removeUnixPathsAux t4.length t4
  let t6 := removeCitationsAux t5.length t5
  let t7 := removeFigAux t6.length t6
  removeTableAux t7.length t7

/-- Tab replacement `text.replace("\t", " ")` of `_clean_whitespace`. -/
def detab (l : List Char) : List Char := l.map (fun c => if c = '\t' then ' ' else c)

/-- `re.sub(r" +", " ", text)`: collapse runs of spaces. -/
def squeezeSpaces : List Char → List Char
  | [] => []
  | [c] => [c]
  | c :: d :: rest =>
    if c = ' ' && d = ' ' then squeezeSpaces (d :: rest)
    else c :: squeezeSpaces (d :: rest)

/-- `re.sub(r"\n{3,}", "\n\n", text)`: `pending` counts the newlines of
the current run; a run of three or more is emitted as exactly two. -/
def collapseNLAux (pending : Nat) : List Char → List Char
  | [] => List.replicate (min pending 2) '\n'
  | c :: rest =>
    if c = '\n' then collapseNLAux (pending + 1) rest
    else List.replicate (min pending 2) '\n' ++ c :: collapseNLAux 0 rest

/-- `re.sub(r"\n{3,}", "\n\n", text)`. -/
def collapseNewlines (l : List Char) : List Char := collapseNLAux 0 l

/-- `PDFService._clean_whitespace`: replace tabs by spaces, collapse
space runs, strip every line, collapse newline runs of three or more,
and strip the whole text. -/
def clean_whitespace (t : List Char) : List Char :=
  pyStrip (collapseNewlines (joinLines ((splitLines (squeezeSpaces (detab t))).map pyStrip)))

/-- Character class `[\W\d]` (non-word or digit) of `_remove_short_lines`. -/
def isNonWordOrDigit (c : Char) : Bool := !isWordChar c || c.isDigit

/-- `PDFService._remove_short_lines` with the default `min_length = 3`:
keep a line iff its stripped form is empty or at least 3 long, and it is
not a nonempty all-`[\W\d]` line. -/
def remove_short_lines (t : List Char) : List Char :=
  joinLines ((splitLines t).filter (fun line =>
    let s := pyStrip line
    (s.isEmpty || decide (3 ≤ s.length)) && !(!s.isEmpty && s.all isNonWordOrDigit)))

/-- Sentence-ending punctuation `[.!?]` of `_normalize_sentences`. -/
def isSentPunct (c : Char) : Bool := c = '.' || c = '!' || c = '?'

/-- `re.sub(r"([.!?])([A-Z])", r"\1 \2", text)`. -/
def spaceAfterPunct : List Char → List Char
  | [] => []
  | [c] => [c]
  | c :: d :: rest =>
    if isSentPunct c && d.isUpper then c :: ' ' :: d :: spaceAfterPunct rest
    else c :: spaceAfterPunct (d :: rest)

/-- `re.sub(r",([A-Za-z])", r", \1", text)`. -/
def spaceAfterComma : List Char → List Char
  | [] => []
  | [c] => [c]
  | c :: d :: rest =>
    if c = ',' && d.isAlpha then ',' :: ' ' :: d :: spaceAfterComma rest
    else c :: spaceAfterComma (d :: rest)

/-- `re.sub(r"([.!?]){2,}", r"\1", text)`: a run of two or more
sentence-punctuation characters is replaced by its last character. -/
def collapsePunct : List Char → List Char
  | [] => []
  | [c] => [c]
  | c :: d :: rest =>
    if isSentPunct c && isSentPunct d then collapsePunct (d :: rest)
    else c :: collapsePunct (d :: rest)

/-- `re.sub(r"\.{2,}", "...", text)`: a run of two or more dots becomes
exactly three. -/
def collapseDotsAux : Nat → List Char → List Char
  | 0, l => l
  | _, [] => []
  | fuel + 1, c :: rest =>
    if c = '.' && rest.headD ' ' = '.' then
      '.' :: '.' :: '.' :: collapseDotsAux fuel (rest.dropWhile (fun d => d = '.'))
    else c :: collapseDotsAux fuel rest

/-- `PDFService._normalize_sentences`: the four substitutions in source
order. -/
def normalize_sentences (t : List Char) : List Char :=
  let t1 := spaceAfterPunct t
  let t2 := spaceAfterComma t1
  let t3 := collapsePunct t2
  collapseDotsAux t3.length t3

/-- `re.search(r"[.!?:]\s*$", s)`: the last non-whitespace character is
sentence-ending punctuation or a colon. -/
def endsSentencePunct (s : List Char) : Bool :=
  match s.reverse.dropWhile pyWS with
  | c :: _ => c = '.' || c = '!' || c = '?' || c = ':'
  | [] => false

/-- Python `" ".join(...)`. -/
def joinWords : List (List Char) → List Char
  | [] => []
  | [p] => p
  | p :: q :: rest => p ++ ' ' :: joinWords (q :: rest)

/-- Loop body of `_join_broken_paragraphs`: `cur` is the current
paragraph (the stripped lines accumulated so far). -/
def joinBrokenAux (cur : List (List Char)) : List (List Char) → List (List Char)
  | [] => if cur.isEmpty then [] else [joinWords cur]
  | line :: rest =>
    let s := pyStrip line
    if s.isEmpty then
      if cur.isEmpty then joinBrokenAux [] rest
      else joinWords cur :: joinBrokenAux [] rest
    else
      if !cur.isEmpty && !endsSentencePunct (cur.getLastD []) then
        joinBrokenAux (cur ++ [s]) rest
      else
        if cur.isEmpty then joinBrokenAux [s] rest
        else joinWords cur :: joinBrokenAux [s] rest

/-- `PDFService._join_broken_paragraphs`. -/
def join_broken_paragraphs (t : List Char) : List Char :=
  joinPar (joinBrokenAux [] (splitLines t))

/-- `PDFService.cleanup_text`: the nine pipeline stages followed by the
final whitespace cleanup, in source order. -/
def cleanup_text (t : List Char) : List Char :=
  clean_whitespace (join_broken_paragraphs (normalize_sentences (remove_short_lines
    (clean_whitespace (remove_special_patterns (remove_page_numbers
      (remove_headers_footers (fix_hyphenated_words (normalize_unicode t)))))))))

/-- Input whose first cleanup pass produces two hyphen-ending paragraphs
(`aaa-` and `bbb-` survive because the `[n]` lines block the hyphen
fixer until the citation remover deletes them), so later passes keep
merging paragraphs pairwise. -/
def hyphenChainInput : List Char := "p q r aaa-\n[1]\nbbb-\n[2]\nccc ddd.".toList

/-- First 40-character paragraph of the three-paragraph example. -/
def c3Para1 : List Char := List.replicate 40 'a'

/-- Second 40-character paragraph of the three-paragraph example. -/
def c3Para2 : List Char := List.replicate 40 'b'

/-- Third 40-character paragraph of the three-paragraph example. -/
def c3Para3 : List Char := List.replicate 40 'c'

/-- Three 40-character paragraphs separated by `"\n\n"`. -/
def c3ExampleText : List Char :=
  c3Para1 ++ '\n' :: '\n' :: c3Para2 ++ '\n' :: '\n' :: c3Para3

/-- A whitespace-only text of two 6001-space paragraphs: longer than
`MAX_CHUNK_CHARS`, so `_split_text` cuts it into two chunks, yet
`summarize` returns before chunking because it strips to empty. -/
def wsBigText : List Char :=
  List.replicate 6001 ' ' ++ '\n' :: '\n' :: List.replicate 6001 ' '

/-- The per-chunk completion calls `summarize` issues for a multi-chunk
input: the call for chunk index `i` carries the prompt
`"Summarize this section (part i+1 of N):"`. -/
def sumChunkCalls (maxC : Nat) (model : List Char) (text : List Char) : List Payload :=
  (split_text maxC text).enum.map (fun pr =>
    build_payload model pr.2 (some (chunkPrompt pr.1 (split_text maxC text).length)))

/-- The final combination call of `summarize` for a multi-chunk input:
its text is the trimmed partial summaries joined by blank lines. -/
def sumCombineCall (maxC : Nat) (model : List Char) (llm : Payload → List Char)
    (text : List Char) : Payload :=
  build_payload model
    (joinPar ((sumChunkCalls maxC model text).map (fun p => pyStrip (llm p))))
    (some combinePrompt)

/-- Response schedule: 429 on the first two attempts, then 200. -/
def respTwo429ThenOk : Nat → Response := fun n =>
  if n < 2 then ⟨429, [], "rate limited".toList⟩
  else ⟨200, ["the summary".toList], []⟩

/-- Response schedule: 429 on every attempt. -/
def respAlways429 : Nat → Response := fun _ => ⟨429, [], "rate limited".toList⟩

/-- Response schedule: immediate 200 with one choice. -/
def respOkOnly : Nat → Response := fun _ => ⟨200, ["the summary".toList], []⟩

/-- Does `pat` occur as a contiguous substring of the list?  Used to
state the absence of forbidden patterns (double spaces, triple newlines,
spaces at line boundaries) in normalizer output. -/
def hasPat (pat : List Char) : List Char → Bool
  | [] => pat.isEmpty
  | c :: rest => pat.isPrefixOf (c :: rest) || hasPat pat rest

/-- Is the first character whitespace?  (`false` for the empty list.) -/
def headIsWS : List Char → Bool
  | [] => false
  | c :: _ => pyWS c

/-! ## Lemmas about paragraph splitting and joining -/

set_option maxRecDepth 10000

theorem joinPar_cons (p : List Char) (l : List (List Char)) (h : l ≠ []) :
    joinPar (p :: l) = p ++ '\n' :: '\n' :: joinPar l := by
  cases l with
  | nil => exact absurd rfl h
  | cons q t => rfl

theorem splitPars_ne_nil (l : List Char) : splitPars l ≠ [] := by
  induction l using splitPars.induct with
  | case1 => simp [splitPars]
  | case2 rest ih => simp [splitPars]
  | case3 c rest hg hsp ih => simp [splitPars, hsp]
  | case4 c rest hg h t hsp ih => simp [splitPars, hsp]

theorem joinPar_splitPars (l : List Char) : joinPar (splitPars l) = l := by
  induction l using splitPars.induct with
  | case1 => rfl
  | case2 rest ih =>
    rw [show splitPars ('\n' :: '\n' :: rest) = [] :: splitPars rest from rfl]
    rw [joinPar_cons [] (splitPars rest) (splitPars_ne_nil rest), ih]
    rfl
  | case3 c rest hg hsp ih => exact absurd hsp (splitPars_ne_nil rest)
  | case4 c rest hg h t hsp ih =>
    have e : splitPars (c :: rest) = (c :: h) :: t := by
      simp [splitPars, hsp]
    rw [e]
    rw [hsp] at ih
    cases t with
    | nil =>
      simp only [joinPar] at ih ⊢
      rw [ih]
    | cons u t2 =>
      rw [joinPar_cons (c :: h) (u :: t2) (by simp)]
      rw [joinPar_cons h (u :: t2) (by simp)] at ih
      rw [List.cons_append, ih]

theorem joinPar_append (a b : List (List Char)) (ha : a ≠ []) (hb : b ≠ []) :
    joinPar (a ++ b) = joinPar a ++ '\n' :: '\n' :: joinPar b := by
  induction a with
  | nil => exact absurd rfl ha
  | cons x a2 ih =>
    cases a2 with
    | nil => rw [List.singleton_append, joinPar_cons x b hb]; rfl
    | cons y a3 =>
      rw [List.cons_append, joinPar_cons x ((y :: a3) ++ b) (by simp),
        ih (by simp), joinPar_cons x (y :: a3) (by simp)]
      simp [List.append_assoc]

theorem splitTextAux_ne_nil (maxC : Nat) (paras : List (List Char)) :
    ∀ cur curLen, cur ≠ [] → splitTextAux maxC paras cur curLen ≠ [] := by
  induction paras with
  | nil => intro cur _ h; simp [splitTextAux, h]
  | cons p rest ih =>
    intro cur curLen h
    simp only [splitTextAux]
    split
    · simp
    · exact ih _ _ (by simp)

theorem joinPar_splitTextAux (maxC : Nat) (paras : List (List Char)) :
    ∀ cur curLen, cur ≠ [] →
    joinPar (splitTextAux maxC paras cur curLen) = joinPar (cur ++ paras) := by
  induction paras with
  | nil => intro cur curLen h; simp [splitTextAux, h, joinPar]
  | cons p rest ih =>
    intro cur curLen h
    simp only [splitTextAux]
    split
    · rw [joinPar_cons _ _ (splitTextAux_ne_nil maxC rest [p] _ (by simp)),
        ih [p] _ (by simp), joinPar_append cur (p :: rest) h (by simp)]
      rfl
    · rw [ih (cur ++ [p]) _ (by simp)]
      congr 1
      simp

/-- C4: for every input string, joining the chunks returned by the text
splitter in order with the paragraph separator `"\n\n"` reconstructs the
input exactly; the chunks are an order-preserving partition of the
input's paragraph sequence. -/
theorem split_text_reconstructs (maxC : Nat) (text : List Char) :
    joinPar (split_text maxC text) = text := by
  unfold split_text
  split
  · rfl
  · cases hsp : splitPars text with
    | nil => exact absurd hsp (splitPars_ne_nil text)
    | cons p rest =>
      have h1 : splitTextAux maxC (p :: rest) [] 0 =
          splitTextAux maxC rest [p] (0 + (p.length + 2)) := by
        simp [splitTextAux]
      rw [h1, joinPar_splitTextAux maxC rest [p] _ (by simp),
        show ([p] ++ rest : List (List Char)) = p :: rest from rfl, ← hsp,
        joinPar_splitPars]

theorem oversizedAlone_aux (maxC : Nat) (p : List Char)
    (paras : List (List Char)) :
    ∀ curLen, maxC < curLen → p ∈ splitTextAux maxC paras [p] curLen := by
  induction paras with
  | nil => intro curLen h; simp [splitTextAux, joinPar]
  | cons q rest ih =>
    intro curLen h
    simp only [splitTextAux]
    rw [if_pos ⟨by omega, by simp⟩]
    exact List.mem_cons_self _ _

theorem oversizedAlone (maxC : Nat) (p : List Char) (hp : maxC < p.length)
    (paras : List (List Char)) :
    ∀ cur curLen, p ∈ paras → p ∈ splitTextAux maxC paras cur curLen := by
  induction paras with
  | nil => intro cur curLen h; simp at h
  | cons q rest ih =>
    intro cur curLen hmem
    rcases List.mem_cons.mp hmem with rfl | hm
    · simp only [splitTextAux]
      split
      · exact List.mem_cons_of_mem _ (oversizedAlone_aux maxC p rest _ (by omega))
      · rename_i hcond
        have hcur : cur = [] := by
          by_contra hc
          exact hcond ⟨by omega, hc⟩
        subst hcur
        simpa using oversizedAlone_aux maxC p rest _ (by omega)
    · simp only [splitTextAux]
      split
      · exact List.mem_cons_of_mem _ (ih [q] _ hm)
      · exact ih _ _ hm

/-- C3: the splitter returns `[text]` whenever `text` fits in the limit;
otherwise it splits on `"\n\n"` and greedily accumulates paragraphs,
keeping a paragraph longer than the limit whole as its own chunk; for
three 40-character paragraphs and limit 100 it returns two chunks, the
first holding paragraphs 1 and 2 and the second holding paragraph 3. -/
theorem split_text_behavior :
    (∀ (maxC : Nat) (text : List Char), text.length ≤ maxC →
      split_text maxC text = [text]) ∧
    (∀ (maxC : Nat) (text p : List Char), p ∈ splitPars text → maxC < p.length →
      maxC < text.length → p ∈ split_text maxC text) ∧
    split_text 100 c3ExampleText = [c3Para1 ++ '\n' :: '\n' :: c3Para2, c3Para3] := by
  refine ⟨?_, ?_, ?_⟩
  · intro maxC text h
    simp [split_text, h]
  · intro maxC text p hmem hlen htext
    unfold split_text
    rw [if_neg (by omega)]
    exact oversizedAlone maxC p hlen (splitPars text) [] 0 hmem
  · decide

/-- Witness for C3 at concrete inputs: a 3-character text with limit 5
stays one chunk, and a 7-character paragraph with limit 5 appears whole
as its own chunk. -/
theorem split_text_behavior_witness :
    split_text 5 "abc".toList = ["abc".toList] ∧
    "xxxxxxx".toList ∈ split_text 5 ("xxxxxxx".toList ++ '\n' :: '\n' :: "yy".toList) :=
  ⟨split_text_behavior.1 5 _ (by decide),
   split_text_behavior.2.1 5 _ _ (by decide) (by decide) (by decide)⟩

theorem splitPars_no_sep (b : List Char) (h : '\n' ∉ b) : splitPars b = [b] := by
  induction b using splitPars.induct with
  | case1 => rfl
  | case2 rest ih => simp at h
  | case3 c rest hg hsp ih => exact absurd hsp (splitPars_ne_nil rest)
  | case4 c rest hg h2 t hsp ih =>
    have hr : '\n' ∉ rest := fun e => h (List.mem_cons_of_mem c e)
    have e2 := ih hr
    rw [hsp] at e2
    injection e2 with e3 e4
    subst e3
    subst e4
    simp [splitPars, hsp]

theorem splitPars_append_sep (a b : List Char) (h : '\n' ∉ a) :
    splitPars (a ++ '\n' :: '\n' :: b) = a :: splitPars b := by
  induction a with
  | nil => rfl
  | cons c a2 ih =>
    have hc : c ≠ '\n' := fun e => h (e ▸ List.mem_cons_self c a2)
    have ha2 : '\n' ∉ a2 := fun e => h (List.mem_cons_of_mem c e)
    have e2 := ih ha2
    rw [List.cons_append]
    rw [show splitPars (c :: (a2 ++ '\n' :: '\n' :: b)) =
      (match splitPars (a2 ++ '\n' :: '\n' :: b) with
        | [] => [[c]]
        | h :: t => (c :: h) :: t) from by
      cases a2 with
      | nil => simp [splitPars, hc]
      | cons d a3 =>
        have hd : d ≠ '\n' := fun e => ha2 (e ▸ List.mem_cons_self d a3)
        simp [splitPars, hc, hd]]
    rw [e2]

theorem pyStrip_of_all_ws (l : List Char) (h : ∀ c ∈ l, pyWS c = true) :
    pyStrip l = [] := by
  unfold pyStrip pyStripRight pyStripLeft
  rw [List.dropWhile_eq_nil_iff.mpr h]
  rfl

/-- C8: for every whitespace-only input (the empty string included),
`summarize` returns an empty summary with chunk count 0, issues zero
completion calls, and raises no error. -/
theorem summarize_whitespace_noop (maxC : Nat) (model : List Char)
    (llm : Payload → List Char) (prompt : Option (List Char)) (text : List Char)
    (h : ∀ c ∈ text, pyWS c = true) :
    summarizeModel maxC model llm prompt text = (⟨[], 0⟩, []) := by
  unfold summarizeModel
  rw [if_pos (pyStrip_of_all_ws text h)]

/-- Witness for C8: the concrete whitespace input `" \t\n"` yields the
empty summary, chunk count 0 and an empty call trace. -/
theorem summarize_whitespace_noop_witness :
    summarizeModel MAX_CHUNK_CHARS [] (fun _ => []) none [' ', '\t', '\n'] =
      (⟨[], 0⟩, []) :=
  summarize_whitespace_noop MAX_CHUNK_CHARS [] (fun _ => []) none [' ', '\t', '\n']
    (by decide)

theorem wsBigText_all_ws : ∀ c ∈ wsBigText, pyWS c = true := by
  intro c hc
  unfold wsBigText at hc
  rcases List.mem_append.mp hc with h1 | h2
  · rw [(List.mem_replicate.mp h1).2]; rfl
  · rcases h2 with _ | ⟨_, h3⟩
    · rfl
    · rcases h3 with _ | ⟨_, h4⟩
      · rfl
      · rw [(List.mem_replicate.mp h4).2]; rfl

theorem splitTextAux_pair (maxC : Nat) (r s : List Char)
    (h : maxC < 0 + (r.length + 2) + (s.length + 2)) :
    splitTextAux maxC [r, s] [] 0 = [r, s] := by
  show (if 0 + (r.length + 2) > maxC ∧ ([] : List (List Char)) ≠ [] then
      joinPar [] :: splitTextAux maxC [s] [r] (r.length + 2)
    else splitTextAux maxC [s] ([] ++ [r]) (0 + (r.length + 2))) = [r, s]
  rw [if_neg (by simp)]
  show (if 0 + (r.length + 2) + (s.length + 2) > maxC ∧ ([r] : List (List Char)) ≠ [] then
      joinPar [r] :: splitTextAux maxC [] [s] (s.length + 2)
    else splitTextAux maxC [] ([r] ++ [s]) (0 + (r.length + 2) + (s.length + 2))) = [r, s]
  rw [if_pos ⟨by omega, by simp⟩]
  simp [splitTextAux, joinPar]

/-- C5 counterexample: the whitespace-only input `wsBigText` splits into
2 chunks, yet `summarize` issues zero completion calls (not 2 + 1 = 3),
because the empty-input check fires before chunking. -/
theorem summarize_two_chunk_zero_calls :
    (split_text MAX_CHUNK_CHARS wsBigText).length = 2 ∧
    (summarizeModel MAX_CHUNK_CHARS [] (fun _ => []) none wsBigText).2.length = 0 := by
  constructor
  · have hnl : '\n' ∉ (List.replicate 6001 ' ' : List Char) := by
      intro h
      exact absurd (List.mem_replicate.mp h).2 (by decide)
    have hsp : splitPars wsBigText =
        [List.replicate 6001 ' ', List.replicate 6001 ' '] := by
      unfold wsBigText
      rw [splitPars_append_sep _ _ hnl, splitPars_no_sep _ hnl]
    have hlen : wsBigText.length = 12004 := by
      unfold wsBigText
      rw [List.length_append, List.length_replicate, List.length_cons,
        List.length_cons, List.length_replicate]
    unfold split_text
    rw [if_neg (by rw [hlen]; decide), hsp,
      splitTextAux_pair _ _ _ (by simp only [List.length_replicate, MAX_CHUNK_CHARS]; omega)]
    rfl
  · unfold summarizeModel
    rw [if_pos (pyStrip_of_all_ws _ wsBigText_all_ws)]
    rfl

/-- C5 (amended): for every input with non-whitespace content that splits
into N ≥ 2 chunks, `summarize` issues exactly N + 1 completion calls:
one per chunk in order, each tagged with its position (part i of N),
followed by one combination call whose user message contains the N
trimmed partial summaries joined by blank lines; it returns the trimmed
final text with chunk count N. -/
theorem summarize_multi_chunk_calls (maxC : Nat) (model : List Char)
    (llm : Payload → List Char) (prompt : Option (List Char)) (text : List Char)
    (hs : pyStrip text ≠ [])
    (h2 : 2 ≤ (split_text maxC text).length) :
    (summarizeModel maxC model llm prompt text).2 =
      sumChunkCalls maxC model text ++ [sumCombineCall maxC model llm text] ∧
    (summarizeModel maxC model llm prompt text).2.length =
      (split_text maxC text).length + 1 ∧
    (∀ i, i < (split_text maxC text).length →
      (sumChunkCalls maxC model text)[i]? =
        some (build_payload model (((split_text maxC text)[i]?).getD [])
          (some (chunkPrompt i (split_text maxC text).length)))) ∧
    (sumCombineCall maxC model llm text).user =
      combinePrompt ++ '\n' :: '\n' ::
        joinPar ((sumChunkCalls maxC model text).map (fun p => pyStrip (llm p))) ∧
    (summarizeModel maxC model llm prompt text).1 =
      ⟨pyStrip (llm (sumCombineCall maxC model llm text)),
        (split_text maxC text).length⟩ := by
  have hne1 : ¬((split_text maxC text).length = 1) := by omega
  have hrw : summarizeModel maxC model llm prompt text =
      (⟨pyStrip (llm (sumCombineCall maxC model llm text)),
        (split_text maxC text).length⟩,
       sumChunkCalls maxC model text ++ [sumCombineCall maxC model llm text]) := by
    unfold summarizeModel
    rw [if_neg hs, if_neg hne1]
    rfl
  refine ⟨by rw [hrw], ?_, ?_, rfl, by rw [hrw]⟩
  · rw [hrw]
    simp [sumChunkCalls]
  · intro i hi
    simp [sumChunkCalls, List.getElem?_map, List.getElem?_enum,
      List.getElem?_eq_getElem hi]

/-- Witness for C5 at a concrete input: with limit 10 the text
`"aaaa\n\nbbbb\n\ncccc"` splits into 3 chunks and the call trace has
3 + 1 entries. -/
theorem summarize_multi_chunk_calls_witness :
    (summarizeModel 10 "m".toList (fun _ => " S ".toList) none
      "aaaa\n\nbbbb\n\ncccc".toList).2.length =
      (split_text 10 "aaaa\n\nbbbb\n\ncccc".toList).length + 1 :=
  (summarize_multi_chunk_calls 10 "m".toList (fun _ => " S ".toList) none
    "aaaa\n\nbbbb\n\ncccc".toList (by decide) (by decide)).2.1

/-- C6: the retry loop never makes more than `MAX_RETRIES + 1 = 3`
attempts; with responses 429, 429, 200 it returns the success content
after exactly 3 attempts and exactly 2 backoff delays of 3 then 6
seconds; with 429 on every attempt it raises after exactly 3 attempts
with no further retry and no further delay. -/
theorem call_llm_retry_schedule :
    (∀ resp : Nat → Response, (call_llm resp).attempts ≤ MAX_RETRIES + 1) ∧
    call_llm respTwo429ThenOk =
      ⟨Except.ok "the summary".toList, 3, [3, 6]⟩ ∧
    call_llm respAlways429 =
      ⟨Except.error (LLMError.apiError 429 "rate limited".toList), 3, [3, 6]⟩ := by
  refine ⟨?_, rfl, rfl⟩
  intro resp
  show (callLoop resp [0, 1, 2] []).attempts ≤ 3
  simp only [callLoop]
  repeat' split
  all_goals norm_num [MAX_RETRIES]

theorem callLoop_cons_429 (resp : Nat → Response) (a : Nat) (rest ds : List Nat)
    (h : (resp a).status = 429) (hlt : a < MAX_RETRIES) :
    callLoop resp (a :: rest) ds = callLoop resp rest (ds ++ [RETRY_BASE_DELAY * 2 ^ a]) := by
  simp only [callLoop]
  rw [if_neg (by simp [h]), if_pos ⟨h, hlt⟩]

theorem callLoop_cons_stop (resp : Nat → Response) (a : Nat) (rest ds : List Nat)
    (h : ¬((resp a).status = 429 ∧ a < MAX_RETRIES)) :
    callLoop resp (a :: rest) ds =
      if (resp a).status = 200 then
        (match (resp a).choices with
          | [] => ⟨Except.error LLMError.noChoices, a + 1, ds⟩
          | c :: _ => ⟨Except.ok c, a + 1, ds⟩)
      else ⟨Except.error (LLMError.apiError (resp a).status (resp a).body), a + 1, ds⟩ := by
  simp only [callLoop]
  rw [if_neg h]

theorem outcome_conjuncts (resp : Nat → Response) (d : Nat)
    (hres : (call_llm resp).result =
      if (resp d).status = 200 then
        (match (resp d).choices with
          | [] => Except.error LLMError.noChoices
          | c :: _ => Except.ok c)
      else Except.error (LLMError.apiError (resp d).status (resp d).body)) :
    ((∃ e, (call_llm resp).result = Except.error e) ↔
      ((resp d).status ≠ 200 ∨ (resp d).choices = [])) ∧
    ((resp d).status ≠ 200 →
      (call_llm resp).result =
        Except.error (LLMError.apiError (resp d).status (resp d).body)) ∧
    ((resp d).status = 200 → (resp d).choices = [] →
      (call_llm resp).result = Except.error LLMError.noChoices) ∧
    (∀ c cs, (resp d).status = 200 → (resp d).choices = c :: cs →
      (call_llm resp).result = Except.ok c) := by
  by_cases h : (resp d).status = 200
  · rw [if_pos h] at hres
    cases hc : (resp d).choices with
    | nil =>
      rw [hc] at hres
      have hres2 : (call_llm resp).result = Except.error LLMError.noChoices := hres
      refine ⟨⟨fun _ => Or.inr rfl, fun _ => ⟨LLMError.noChoices, hres2⟩⟩,
        fun hne => absurd h hne, fun _ _ => hres2, fun c cs _ hcc => ?_⟩
      exact absurd hcc (by simp)
    | cons c cs =>
      rw [hc] at hres
      have hres2 : (call_llm resp).result = Except.ok c := hres
      refine ⟨⟨fun he => ?_, fun hor => ?_⟩,
        fun hne => absurd h hne, fun _ hnil => ?_, fun c2 cs2 _ hcc => ?_⟩
      · obtain ⟨e, he⟩ := he
        rw [he] at hres2
        exact absurd hres2 (by simp)
      · rcases hor with hne | hnil
        · exact absurd h hne
        · exact absurd hnil (by simp)
      · exact absurd hnil (by simp)
      · injection hcc with e1 e2
        subst e1
        exact hres2
  · rw [if_neg h] at hres
    refine ⟨⟨fun _ => Or.inl h, fun _ => ⟨_, hres⟩⟩, fun _ => hres,
      fun h200 => absurd h200 h, fun c cs h200 => absurd h200 h⟩

/-- C7: `_call_llm` raises iff the decisive response is non-200 (a
non-429 status, or a 429 with retries exhausted — the error carrying the
status and body) or is a 200 with an empty choices list ("no choices
returned"); otherwise it returns the first choice's content exactly as
received, unmodified. -/
theorem call_llm_outcome_characterization (resp : Nat → Response) :
    ((∃ e, (call_llm resp).result = Except.error e) ↔
      ((resp (decisiveIdx resp)).status ≠ 200 ∨
        (resp (decisiveIdx resp)).choices = [])) ∧
    ((resp (decisiveIdx resp)).status ≠ 200 →
      (call_llm resp).result =
        Except.error (LLMError.apiError (resp (decisiveIdx resp)).status
          (resp (decisiveIdx resp)).body)) ∧
    ((resp (decisiveIdx resp)).status = 200 →
      (resp (decisiveIdx resp)).choices = [] →
      (call_llm resp).result = Except.error LLMError.noChoices) ∧
    (∀ c cs, (resp (decisiveIdx resp)).status = 200 →
      (resp (decisiveIdx resp)).choices = c :: cs →
      (call_llm resp).result = Except.ok c) := by
  by_cases h0 : (resp 0).status = 429
  · by_cases h1 : (resp 1).status = 429
    · have hd : decisiveIdx resp = 2 := by simp [decisiveIdx, h0, h1]
      rw [hd]
      refine outcome_conjuncts resp 2 ?_
      show (callLoop resp [0, 1, 2] []).result = _
      rw [callLoop_cons_429 resp 0 _ _ h0 (by decide),
        callLoop_cons_429 resp 1 _ _ h1 (by decide),
        callLoop_cons_stop resp 2 _ _ (by intro hx; exact absurd hx.2 (by decide))]
      split
      · split <;> rfl
      · rfl
    · have hd : decisiveIdx resp = 1 := by simp [decisiveIdx, h0, h1]
      rw [hd]
      refine outcome_conjuncts resp 1 ?_
      show (callLoop resp [0, 1, 2] []).result = _
      rw [callLoop_cons_429 resp 0 _ _ h0 (by decide),
        callLoop_cons_stop resp 1 _ _ (by intro hx; exact absurd hx.1 h1)]
      split
      · split <;> rfl
      · rfl
  · have hd : decisiveIdx resp = 0 := by simp [decisiveIdx, h0]
    rw [hd]
    refine outcome_conjuncts resp 0 ?_
    show (callLoop resp [0, 1, 2] []).result = _
    rw [callLoop_cons_stop resp 0 _ _ (by intro hx; exact absurd hx.1 h0)]
    split
    · split <;> rfl
    · rfl

/-- Witness for C7: an immediate 200 with one choice returns that
choice's content unmodified. -/
theorem call_llm_outcome_witness :
    (call_llm respOkOnly).result = Except.ok "the summary".toList :=
  (call_llm_outcome_characterization respOkOnly).2.2.2 "the summary".toList [] rfl rfl

/-- C2 (code evaluation): the unicode-normalization stage leaves the
right single curly quote U+2019 in place — on `"it’s café"` the output
equals the input, so no ASCII apostrophe is substituted; the accented
`é` is preserved, as the claim also states.  (The replacement table's
curly-quote keys are literal ASCII quotes in the source, so the table
never matches U+2018/U+2019/U+201C/U+201D.) -/
theorem normalize_unicode_keeps_curly_quote :
    normalize_unicode "it’s café".toList = "it’s café".toList ∧
    '’' ∈ normalize_unicode "it’s café".toList ∧
    '\'' ∉ normalize_unicode "it’s café".toList ∧
    'é' ∈ normalize_unicode "it’s café".toList := by decide

/-- C9 (code evaluation): bare citation numbers survive the
noise-pattern removal stage — on `"see 12 and [3]"` the bracketed `[3]`
is removed but the bare `12` remains, because the regex `\[?\d+\]`
demands a closing bracket. -/
theorem remove_special_patterns_keeps_bare_number :
    remove_special_patterns "see 12 and [3]".toList = "see 12 and ".toList ∧
    '1' ∈ remove_special_patterns "see 12 and [3]".toList := by decide

/-- C1 counterexample: on the hyphen-chain input the third application
of the cleanup pipeline differs from the second — the second pass merges
`aaa-` with `bbb`, and only the third pass merges the result with `ccc`,
so `cleanup_text` applied twice is not yet a fixpoint of the pipeline. -/
theorem cleanup_text_third_ne_second :
    cleanup_text (cleanup_text (cleanup_text hyphenChainInput)) ≠
      cleanup_text (cleanup_text hyphenChainInput) := by decide

/-- C1 (amended): the pipeline need not reach a fixpoint within two
applications — on the exhibited input the third application still
differs from the second, and the fixpoint arrives only at the third
application (the fourth equals the third); each extra pass merges one
more hyphen-separated paragraph pair, so no fixed number of applications
suffices in general. -/
theorem cleanup_text_stabilizes_at_third :
    cleanup_text (cleanup_text (cleanup_text (cleanup_text hyphenChainInput))) =
      cleanup_text (cleanup_text (cleanup_text hyphenChainInput)) ∧
    cleanup_text (cleanup_text (cleanup_text hyphenChainInput)) ≠
      cleanup_text (cleanup_text hyphenChainInput) := by decide

/-! ## Lemmas for the whitespace-cleanliness of normalizer output -/

theorem isPrefixOf_mem {pat l : List Char} (h : pat.isPrefixOf l = true) :
    ∀ x ∈ pat, x ∈ l := by
  induction pat generalizing l with
  | nil => intro x hx; simp at hx
  | cons a pat2 ih =>
    cases l with
    | nil => simp [List.isPrefixOf] at h
    | cons b l2 =>
      simp only [List.isPrefixOf, Bool.and_eq_true, beq_iff_eq] at h
      intro x hx
      rcases List.mem_cons.mp hx with rfl | hx2
      · rw [h.1]; exact List.mem_cons_self _ _
      · exact List.mem_cons_of_mem _ (ih h.2 x hx2)

theorem isPrefixOf_append_right {pat m : List Char} (v : List Char)
    (h : pat.isPrefixOf m = true) : pat.isPrefixOf (m ++ v) = true := by
  induction pat generalizing m with
  | nil => simp [List.isPrefixOf]
  | cons a pat2 ih =>
    cases m with
    | nil => simp [List.isPrefixOf] at h
    | cons b m2 =>
      simp only [List.isPrefixOf, Bool.and_eq_true, beq_iff_eq] at h
      simp only [List.cons_append, List.isPrefixOf, Bool.and_eq_true, beq_iff_eq]
      exact ⟨h.1, ih h.2⟩

theorem hasPat_of_isPrefixOf {pat l : List Char} (h : pat.isPrefixOf l = true) :
    hasPat pat l = true := by
  cases l with
  | nil =>
    cases pat with
    | nil => rfl
    | cons a p2 => simp [List.isPrefixOf] at h
  | cons c rest => simp [hasPat, h]

theorem hasPat_cons_of_tail {pat : List Char} {c : Char} {rest : List Char}
    (h : hasPat pat rest = true) : hasPat pat (c :: rest) = true := by
  simp [hasPat, h]

theorem hasPat_append_of_right {pat : List Char} (u : List Char) {v : List Char}
    (h : hasPat pat v = true) : hasPat pat (u ++ v) = true := by
  induction u with
  | nil => exact h
  | cons c u2 ih => exact hasPat_cons_of_tail ih

theorem hasPat_append_of_left {pat : List Char} {m : List Char} (v : List Char)
    (h : hasPat pat m = true) : hasPat pat (m ++ v) = true := by
  induction m with
  | nil =>
    cases pat with
    | nil => exact hasPat_of_isPrefixOf (by cases v <;> simp [List.isPrefixOf])
    | cons a p2 => simp [hasPat] at h
  | cons c m2 ih =>
    simp only [hasPat, Bool.or_eq_true] at h
    rcases h with h1 | h2
    · exact hasPat_of_isPrefixOf (by
        rw [show (c :: m2) ++ v = c :: (m2 ++ v) from rfl]
        exact isPrefixOf_append_right v h1)
    · exact hasPat_cons_of_tail (ih h2)

theorem hasPat_of_mid {pat : List Char} (u m v : List Char)
    (h : hasPat pat m = true) : hasPat pat (u ++ m ++ v) = true := by
  rw [List.append_assoc]
  exact hasPat_append_of_right u (hasPat_append_of_left v h)

theorem hasPat_mem {pat l : List Char} {b : Char} (hb : b ∈ pat) (hl : b ∉ l) :
    hasPat pat l = false := by
  induction l with
  | nil =>
    cases pat with
    | nil => simp at hb
    | cons a p2 => rfl
  | cons c rest ih =>
    simp only [hasPat, Bool.or_eq_false_iff]
    constructor
    · by_contra hp
      rw [Bool.not_eq_false] at hp
      exact hl (isPrefixOf_mem hp b hb)
    · exact ih (fun hm => hl (List.mem_cons_of_mem c hm))

theorem isPrefixOf_length {pat l : List Char} (h : pat.isPrefixOf l = true) :
    pat.length ≤ l.length := by
  induction pat generalizing l with
  | nil => simp
  | cons a p2 ih =>
    cases l with
    | nil => simp [List.isPrefixOf] at h
    | cons b l2 =>
      simp only [List.isPrefixOf, Bool.and_eq_true] at h
      simpa using ih h.2

theorem hasPat_length {pat l : List Char} (h : hasPat pat l = true) :
    pat.length ≤ l.length := by
  induction l with
  | nil =>
    cases pat with
    | nil => simp
    | cons a p2 => simp [hasPat] at h
  | cons c rest ih =>
    simp only [hasPat, Bool.or_eq_true] at h
    rcases h with h1 | h2
    · exact isPrefixOf_length h1
    · exact Nat.le_trans (ih h2) (by simp)

theorem dropWhile_decomp (p : Char → Bool) (l : List Char) :
    ∃ u, l = u ++ l.dropWhile p := by
  induction l with
  | nil => exact ⟨[], rfl⟩
  | cons c rest ih =>
    by_cases h : p c
    · obtain ⟨u, hu⟩ := ih
      refine ⟨c :: u, ?_⟩
      simp [List.dropWhile, h]
      exact hu
    · refine ⟨[], ?_⟩
      simp [List.dropWhile, h]

theorem pyStripRight_decomp (x : List Char) : ∃ w, x = pyStripRight x ++ w := by
  obtain ⟨w, hw⟩ := dropWhile_decomp pyWS x.reverse
  refine ⟨w.reverse, ?_⟩
  calc x = x.reverse.reverse := by rw [List.reverse_reverse]
    _ = (w ++ x.reverse.dropWhile pyWS).reverse := by rw [← hw]
    _ = pyStripRight x ++ w.reverse := by
        rw [List.reverse_append]; rfl

theorem pyStrip_decomp (l : List Char) : ∃ u v, l = u ++ pyStrip l ++ v := by
  obtain ⟨u, hu⟩ := dropWhile_decomp pyWS l
  obtain ⟨w, hw⟩ := pyStripRight_decomp (pyStripLeft l)
  refine ⟨u, w, ?_⟩
  rw [List.append_assoc]
  rw [show pyStrip l ++ w = pyStripLeft l from hw.symm]
  exact hu

theorem hasPat_pyStrip {pat l : List Char} (h : hasPat pat l = false) :
    hasPat pat (pyStrip l) = false := by
  by_contra hc
  rw [Bool.not_eq_false] at hc
  obtain ⟨u, v, huv⟩ := pyStrip_decomp l
  rw [huv, hasPat_of_mid u _ v hc] at h
  exact absurd h (by simp)

theorem mem_pyStrip {c : Char} {l : List Char} (h : c ∈ pyStrip l) : c ∈ l := by
  obtain ⟨u, v, huv⟩ := pyStrip_decomp l
  rw [huv]
  simp [h]

theorem headIsWS_dropWhile (l : List Char) : headIsWS (l.dropWhile pyWS) = false := by
  induction l with
  | nil => rfl
  | cons c rest ih =>
    by_cases h : pyWS c
    · simpa [List.dropWhile, h] using ih
    · simp only [List.dropWhile, h]
      simpa [headIsWS] using h

theorem headIsWS_pyStripRight {x : List Char} (h : headIsWS x = false) :
    headIsWS (pyStripRight x) = false := by
  obtain ⟨w, hw⟩ := pyStripRight_decomp x
  cases hx : pyStripRight x with
  | nil => rfl
  | cons c y =>
    rw [hx] at hw
    rw [hw] at h
    simpa [headIsWS] using h

theorem headIsWS_pyStrip (l : List Char) : headIsWS (pyStrip l) = false :=
  headIsWS_pyStripRight (headIsWS_dropWhile l)

theorem lastIsWS_pyStrip (l : List Char) : headIsWS (pyStrip l).reverse = false := by
  show headIsWS (pyStripRight (pyStripLeft l)).reverse = false
  unfold pyStripRight
  rw [List.reverse_reverse]
  exact headIsWS_dropWhile _

theorem single_isPrefixOf_head {b : Char} {X : List Char}
    (h : ([b] : List Char).isPrefixOf X = true) : X.head? = some b := by
  cases X with
  | nil => simp [List.isPrefixOf] at h
  | cons x X2 =>
    simp only [List.isPrefixOf, Bool.and_eq_true, beq_iff_eq] at h
    rw [h.1]
    rfl

theorem pair_isPrefixOf {a b : Char} {X : List Char}
    (h : ([a, b] : List Char).isPrefixOf X = true) : ∃ r, X = a :: b :: r := by
  cases X with
  | nil => simp [List.isPrefixOf] at h
  | cons x X2 =>
    simp only [List.isPrefixOf, Bool.and_eq_true, beq_iff_eq] at h
    obtain ⟨rfl, h2⟩ := h
    obtain he := single_isPrefixOf_head h2
    cases X2 with
    | nil => simp at he
    | cons y X3 =>
      simp only [List.head?, Option.some.injEq] at he
      exact ⟨X3, by rw [he]⟩

theorem mem_squeezeSpaces {a : Char} {l : List Char}
    (h : a ∈ squeezeSpaces l) : a ∈ l := by
  induction l using squeezeSpaces.induct with
  | case1 => simp [squeezeSpaces] at h
  | case2 c => simpa [squeezeSpaces] using h
  | case3 c d rest hcd ih =>
    rw [show squeezeSpaces (c :: d :: rest) = squeezeSpaces (d :: rest) from by
      simp [squeezeSpaces, hcd]] at h
    exact List.mem_cons_of_mem c (ih h)
  | case4 c d rest hcd ih =>
    rw [show squeezeSpaces (c :: d :: rest) = c :: squeezeSpaces (d :: rest) from by
      simp [squeezeSpaces, hcd]] at h
    rcases List.mem_cons.mp h with rfl | h2
    · exact List.mem_cons_self _ _
    · exact List.mem_cons_of_mem c (ih h2)

theorem head?_squeezeSpaces (l : List Char) : (squeezeSpaces l).head? = l.head? := by
  induction l using squeezeSpaces.induct with
  | case1 => rfl
  | case2 c => rfl
  | case3 c d rest hcd ih =>
    rw [show squeezeSpaces (c :: d :: rest) = squeezeSpaces (d :: rest) from by
      simp [squeezeSpaces, hcd]]
    rw [ih]
    have hc2 : c = ' ' ∧ d = ' ' := by simpa using hcd
    rw [hc2.1, hc2.2]
    rfl
  | case4 c d rest hcd ih =>
    rw [show squeezeSpaces (c :: d :: rest) = c :: squeezeSpaces (d :: rest) from by
      simp [squeezeSpaces, hcd]]
    rfl

theorem noDouble_squeezeSpaces (l : List Char) :
    hasPat [' ', ' '] (squeezeSpaces l) = false := by
  induction l using squeezeSpaces.induct with
  | case1 => rfl
  | case2 c => simp [squeezeSpaces, hasPat, List.isPrefixOf]
  | case3 c d rest hcd ih =>
    rw [show squeezeSpaces (c :: d :: rest) = squeezeSpaces (d :: rest) from by
      simp [squeezeSpaces, hcd]]
    exact ih
  | case4 c d rest hcd ih =>
    rw [show squeezeSpaces (c :: d :: rest) = c :: squeezeSpaces (d :: rest) from by
      simp [squeezeSpaces, hcd]]
    simp only [hasPat, Bool.or_eq_false_iff]
    refine ⟨?_, ih⟩
    by_contra hp
    rw [Bool.not_eq_false] at hp
    obtain ⟨r, hr⟩ := pair_isPrefixOf hp
    injection hr with hc hr2
    have hd : (squeezeSpaces (d :: rest)).head? = some ' ' := by
      rw [hr2]; rfl
    rw [head?_squeezeSpaces] at hd
    simp only [List.head?, Option.some.injEq] at hd
    simp [hc, hd] at hcd

theorem splitLines_ne_nil (s : List Char) : splitLines s ≠ [] := by
  induction s with
  | nil => simp [splitLines]
  | cons c rest ih =>
    simp only [splitLines]
    split
    · simp
    · split
      · simp
      · simp

theorem splitLines_first {s h : List Char} {t : List (List Char)}
    (he : splitLines s = h :: t) : ∃ v, s = h ++ v := by
  induction s generalizing h t with
  | nil =>
    simp only [splitLines, List.cons.injEq] at he
    exact ⟨[], by rw [← he.1]; rfl⟩
  | cons c rest ih =>
    simp only [splitLines] at he
    by_cases hc : c = '\n'
    · rw [if_pos hc] at he
      injection he with h1 h2
      exact ⟨c :: rest, by rw [← h1]; rfl⟩
    · rw [if_neg hc] at he
      cases hsp : splitLines rest with
      | nil => exact absurd hsp (splitLines_ne_nil rest)
      | cons h2 t2 =>
        rw [hsp] at he
        injection he with he1 he2
        obtain ⟨v, hv⟩ := ih hsp
        exact ⟨v, by rw [← he1, List.cons_append, ← hv]⟩

theorem mem_splitLines_decomp {l s : List Char} (h : l ∈ splitLines s) :
    ∃ u v, s = u ++ l ++ v := by
  induction s generalizing l with
  | nil =>
    simp only [splitLines, List.mem_singleton] at h
    exact ⟨[], [], by rw [h]; rfl⟩
  | cons c rest ih =>
    simp only [splitLines] at h
    by_cases hc : c = '\n'
    · rw [if_pos hc] at h
      rcases List.mem_cons.mp h with rfl | h2
      · exact ⟨[], c :: rest, rfl⟩
      · obtain ⟨u, v, huv⟩ := ih h2
        exact ⟨c :: u, v, by rw [huv]; simp⟩
    · rw [if_neg hc] at h
      cases hsp : splitLines rest with
      | nil => exact absurd hsp (splitLines_ne_nil rest)
      | cons h2 t2 =>
        rw [hsp] at h
        rcases List.mem_cons.mp h with rfl | hmem
        · obtain ⟨v, hv⟩ := splitLines_first hsp
          exact ⟨[], v, by rw [List.nil_append, List.cons_append, ← hv]⟩
        · obtain ⟨u, v, huv⟩ := ih (hsp ▸ List.mem_cons_of_mem h2 hmem)
          exact ⟨c :: u, v, by rw [huv]; simp⟩

theorem noNl_splitLines {l s : List Char} (h : l ∈ splitLines s) : '\n' ∉ l := by
  induction s generalizing l with
  | nil =>
    simp only [splitLines, List.mem_singleton] at h
    simp [h]
  | cons c rest ih =>
    simp only [splitLines] at h
    by_cases hc : c = '\n'
    · rw [if_pos hc] at h
      rcases List.mem_cons.mp h with rfl | h2
      · simp
      · exact ih h2
    · rw [if_neg hc] at h
      cases hsp : splitLines rest with
      | nil => exact absurd hsp (splitLines_ne_nil rest)
      | cons h2 t2 =>
        rw [hsp] at h
        rcases List.mem_cons.mp h with rfl | hmem
        · intro hm
          rcases List.mem_cons.mp hm with he | h3
          · exact hc he.symm
          · exact ih (hsp ▸ List.mem_cons_self h2 t2) h3
        · exact ih (hsp ▸ List.mem_cons_of_mem h2 hmem)

theorem hasPat_pair_append {a b : Char} (u v : List Char)
    (h : hasPat [a, b] (u ++ v) = true) :
    hasPat [a, b] u = true ∨ hasPat [a, b] v = true ∨
      (u.reverse.head? = some a ∧ v.head? = some b) := by
  induction u with
  | nil => exact Or.inr (Or.inl h)
  | cons c u2 ih =>
    rw [List.cons_append] at h
    simp only [hasPat, Bool.or_eq_true] at h
    rcases h with h1 | h2
    · obtain ⟨r, hr⟩ := pair_isPrefixOf h1
      injection hr with hca hr2
      cases u2 with
      | nil =>
        subst hca
        refine Or.inr (Or.inr ⟨by simp, ?_⟩)
        rw [show v = b :: r from by simpa using hr2]
        rfl
      | cons d u3 =>
        injection hr2 with hdb hr3
        subst hca
        subst hdb
        refine Or.inl (hasPat_of_isPrefixOf ?_)
        simp [List.isPrefixOf]
    · rcases ih h2 with hu | hv | hcross
      · exact Or.inl (hasPat_cons_of_tail hu)
      · exact Or.inr (Or.inl hv)
      · refine Or.inr (Or.inr ⟨?_, hcross.2⟩)
        cases hx : u2.reverse with
        | nil => rw [hx] at hcross; exact absurd hcross.1 (by simp)
        | cons z zs =>
          rw [hx] at hcross
          rw [List.reverse_cons, hx]
          simpa using hcross.1

theorem pyWS_space : pyWS ' ' = true := rfl

theorem pyWS_nl : pyWS '\n' = true := rfl

theorem joinLines_head_not_space (ls : List (List Char))
    (hC : ∀ li ∈ ls, headIsWS li = false) :
    (joinLines ls).head? ≠ some ' ' := by
  cases ls with
  | nil => simp [joinLines]
  | cons l ls2 =>
    have hl : headIsWS l = false := hC l (List.mem_cons_self _ _)
    cases ls2 with
    | nil =>
      show l.head? ≠ some ' '
      cases l with
      | nil => simp
      | cons c l2 =>
        intro he
        simp only [List.head?, Option.some.injEq] at he
        rw [he] at hl
        rw [show headIsWS (' ' :: l2) = true from pyWS_space] at hl
        exact absurd hl (by simp)
    | cons l2 ls3 =>
      show (l ++ '\n' :: joinLines (l2 :: ls3)).head? ≠ some ' '
      cases l with
      | nil => simp
      | cons c l3 =>
        intro he
        simp only [List.cons_append, List.head?, Option.some.injEq] at he
        rw [he] at hl
        rw [show headIsWS (' ' :: l3) = true from pyWS_space] at hl
        exact absurd hl (by simp)

theorem mem_joinLines {a : Char} {ls : List (List Char)} (h : a ∈ joinLines ls) :
    a = '\n' ∨ ∃ li ∈ ls, a ∈ li := by
  induction ls with
  | nil => simp [joinLines] at h
  | cons l ls2 ih =>
    cases ls2 with
    | nil =>
      right
      exact ⟨l, List.mem_cons_self _ _, h⟩
    | cons l2 ls3 =>
      rw [show joinLines (l :: l2 :: ls3) = l ++ '\n' :: joinLines (l2 :: ls3) from rfl] at h
      rcases List.mem_append.mp h with h1 | h2
      · exact Or.inr ⟨l, List.mem_cons_self _ _, h1⟩
      · rcases List.mem_cons.mp h2 with rfl | h3
        · exact Or.inl rfl
        · rcases ih h3 with hnl | ⟨li, hmem, hin⟩
          · exact Or.inl hnl
          · exact Or.inr ⟨li, List.mem_cons_of_mem _ hmem, hin⟩

theorem joinLines_clean (ls : List (List Char))
    (hA : ∀ li ∈ ls, '\n' ∉ li)
    (hB : ∀ li ∈ ls, hasPat [' ', ' '] li = false)
    (hC : ∀ li ∈ ls, headIsWS li = false)
    (hD : ∀ li ∈ ls, headIsWS li.reverse = false) :
    hasPat [' ', ' '] (joinLines ls) = false ∧
    hasPat [' ', '\n'] (joinLines ls) = false ∧
    hasPat ['\n', ' '] (joinLines ls) = false := by
  induction ls with
  | nil => exact ⟨rfl, rfl, rfl⟩
  | cons l ls2 ih =>
    have hAl := hA l (List.mem_cons_self _ _)
    have hBl := hB l (List.mem_cons_self _ _)
    have hDl := hD l (List.mem_cons_self _ _)
    cases ls2 with
    | nil =>
      exact ⟨hBl,
        hasPat_mem (List.mem_cons_of_mem _ (List.mem_cons_self _ _)) hAl,
        hasPat_mem (List.mem_cons_self _ _) hAl⟩
    | cons l2 ls3 =>
      obtain ⟨ih1, ih2, ih3⟩ := ih
        (fun li hm => hA li (List.mem_cons_of_mem _ hm))
        (fun li hm => hB li (List.mem_cons_of_mem _ hm))
        (fun li hm => hC li (List.mem_cons_of_mem _ hm))
        (fun li hm => hD li (List.mem_cons_of_mem _ hm))
      have hJhead := joinLines_head_not_space (l2 :: ls3)
        (fun li hm => hC li (List.mem_cons_of_mem _ hm))
      rw [show joinLines (l :: l2 :: ls3) = l ++ '\n' :: joinLines (l2 :: ls3) from rfl]
      refine ⟨?_, ?_, ?_⟩
      · by_contra hcon
        rw [Bool.not_eq_false] at hcon
        rcases hasPat_pair_append l _ hcon with h1 | h2 | h3
        · rw [h1] at hBl; exact absurd hBl (by simp)
        · simp only [hasPat, Bool.or_eq_true] at h2
          rcases h2 with h2a | h2b
          · obtain ⟨r, hr⟩ := pair_isPrefixOf h2a
            injection hr with hx
            exact absurd hx (by decide)
          · rw [h2b] at ih1; exact absurd ih1 (by simp)
        · simp only [List.head?, Option.some.injEq] at h3
          exact absurd h3.2 (by decide)
      · by_contra hcon
        rw [Bool.not_eq_false] at hcon
        rcases hasPat_pair_append l _ hcon with h1 | h2 | h3
        · rw [hasPat_mem (show '\n' ∈ [' ', '\n'] from by decide) hAl] at h1
          exact absurd h1 (by simp)
        · simp only [hasPat, Bool.or_eq_true] at h2
          rcases h2 with h2a | h2b
          · obtain ⟨r, hr⟩ := pair_isPrefixOf h2a
            injection hr with hx
            exact absurd hx (by decide)
          · rw [h2b] at ih2; exact absurd ih2 (by simp)
        · cases hx : l.reverse with
          | nil => rw [hx] at h3; exact absurd h3.1 (by simp)
          | cons z zs =>
            rw [hx] at h3
            simp only [List.head?, Option.some.injEq] at h3
            rw [hx, h3.1] at hDl
            rw [show headIsWS (' ' :: zs) = true from pyWS_space] at hDl
            exact absurd hDl (by simp)
      · by_contra hcon
        rw [Bool.not_eq_false] at hcon
        rcases hasPat_pair_append l _ hcon with h1 | h2 | h3
        · rw [hasPat_mem (show '\n' ∈ ['\n', ' '] from by decide) hAl] at h1
          exact absurd h1 (by simp)
        · simp only [hasPat, Bool.or_eq_true] at h2
          rcases h2 with h2a | h2b
          · obtain ⟨r, hr⟩ := pair_isPrefixOf h2a
            injection hr with hx hr2
            exact hJhead (by rw [hr2]; rfl)
          · rw [h2b] at ih3; exact absurd ih3 (by simp)
        · cases hx : l.reverse with
          | nil => rw [hx] at h3; exact absurd h3.1 (by simp)
          | cons z zs =>
            rw [hx] at h3
            simp only [List.head?, Option.some.injEq] at h3
            rw [h3.1] at hx
            have : '\n' ∈ l := by
              rw [show l = l.reverse.reverse from (List.reverse_reverse l).symm, hx]
              simp
            exact hAl this

theorem cons_isPrefixOf_head {a : Char} {pat X : List Char}
    (h : (a :: pat).isPrefixOf X = true) : X.head? = some a := by
  cases X with
  | nil => simp [List.isPrefixOf] at h
  | cons x X2 =>
    simp only [List.isPrefixOf, Bool.and_eq_true, beq_iff_eq] at h
    rw [h.1]
    rfl

theorem triple_isPrefixOf {a b e : Char} {X : List Char}
    (h : ([a, b, e] : List Char).isPrefixOf X = true) : ∃ r, X = a :: b :: e :: r := by
  cases X with
  | nil => simp [List.isPrefixOf] at h
  | cons x X2 =>
    simp only [List.isPrefixOf, Bool.and_eq_true, beq_iff_eq] at h
    obtain ⟨rfl, h2⟩ := h
    obtain ⟨r, hr⟩ := pair_isPrefixOf h2
    exact ⟨r, by rw [hr]⟩

theorem hasPat_tail_false {pat : List Char} {c : Char} {rest : List Char}
    (h : hasPat pat (c :: rest) = false) : hasPat pat rest = false := by
  simp only [hasPat, Bool.or_eq_false_iff] at h
  exact h.2

theorem hasPat_cons_false_intro {pat : List Char} {c : Char} {X : List Char}
    (h1 : pat.isPrefixOf (c :: X) = false) (h2 : hasPat pat X = false) :
    hasPat pat (c :: X) = false := by
  simp [hasPat, h1, h2]

theorem mem_collapseNLAux {a : Char} :
    ∀ (x : List Char) (p : Nat), a ∈ collapseNLAux p x → a = '\n' ∨ a ∈ x := by
  intro x
  induction x with
  | nil =>
    intro p h
    rw [show collapseNLAux p [] = List.replicate (min p 2) '\n' from rfl] at h
    exact Or.inl (List.mem_replicate.mp h).2
  | cons c rest ih =>
    intro p h
    by_cases hc : c = '\n'
    · rw [show collapseNLAux p (c :: rest) = collapseNLAux (p + 1) rest from by
        simp [collapseNLAux, hc]] at h
      rcases ih (p + 1) h with h1 | h2
      · exact Or.inl h1
      · exact Or.inr (List.mem_cons_of_mem c h2)
    · rw [show collapseNLAux p (c :: rest) =
        List.replicate (min p 2) '\n' ++ c :: collapseNLAux 0 rest from by
        simp [collapseNLAux, hc]] at h
      rcases List.mem_append.mp h with h1 | h2
      · exact Or.inl (List.mem_replicate.mp h1).2
      · rcases List.mem_cons.mp h2 with rfl | h3
        · exact Or.inr (List.mem_cons_self _ _)
        · rcases ih 0 h3 with h4 | h5
          · exact Or.inl h4
          · exact Or.inr (List.mem_cons_of_mem c h5)

theorem head?_collapseNLAux_pos :
    ∀ (x : List Char) (p : Nat), 1 ≤ p → (collapseNLAux p x).head? = some '\n' := by
  intro x
  induction x with
  | nil =>
    intro p hp
    show (List.replicate (min p 2) '\n').head? = some '\n'
    have : min p 2 = 1 ∨ min p 2 = 2 := by omega
    rcases this with h | h <;> rw [h] <;> rfl
  | cons c rest ih =>
    intro p hp
    by_cases hc : c = '\n'
    · rw [show collapseNLAux p (c :: rest) = collapseNLAux (p + 1) rest from by
        simp [collapseNLAux, hc]]
      exact ih (p + 1) (by omega)
    · rw [show collapseNLAux p (c :: rest) =
        List.replicate (min p 2) '\n' ++ c :: collapseNLAux 0 rest from by
        simp [collapseNLAux, hc]]
      have : min p 2 = 1 ∨ min p 2 = 2 := by omega
      rcases this with h | h <;> rw [h] <;> rfl

theorem head?_collapseNLAux_zero {b : Char} :
    ∀ x : List Char, (collapseNLAux 0 x).head? = some b → x.head? = some b := by
  intro x
  cases x with
  | nil => intro h; simp [collapseNLAux] at h
  | cons c rest =>
    intro h
    by_cases hc : c = '\n'
    · rw [show collapseNLAux 0 (c :: rest) = collapseNLAux 1 rest from by
        simp [collapseNLAux, hc]] at h
      rw [head?_collapseNLAux_pos rest 1 (by omega)] at h
      injection h with hb
      rw [hc, hb]
      rfl
    · rw [show collapseNLAux 0 (c :: rest) =
        List.replicate (min 0 2) '\n' ++ c :: collapseNLAux 0 rest from by
        simp [collapseNLAux, hc]] at h
      simp only [Nat.zero_min, List.replicate, List.nil_append, List.head?] at h
      exact h

theorem collapse_block_clean {c : Char} {rest : List Char} (hc : c ≠ '\n')
    (h2 : hasPat [' ', ' '] (c :: rest) = false)
    (ha : hasPat [' ', '\n'] (c :: rest) = false)
    (i1 : hasPat [' ', ' '] (collapseNLAux 0 rest) = false)
    (i2 : hasPat [' ', '\n'] (collapseNLAux 0 rest) = false)
    (i3 : hasPat ['\n', ' '] (collapseNLAux 0 rest) = false)
    (i4 : hasPat ['\n', '\n', '\n'] (collapseNLAux 0 rest) = false) :
    hasPat [' ', ' '] (c :: collapseNLAux 0 rest) = false ∧
    hasPat [' ', '\n'] (c :: collapseNLAux 0 rest) = false ∧
    hasPat ['\n', ' '] (c :: collapseNLAux 0 rest) = false ∧
    hasPat ['\n', '\n', '\n'] (c :: collapseNLAux 0 rest) = false := by
  refine ⟨hasPat_cons_false_intro ?_ i1, hasPat_cons_false_intro ?_ i2,
    hasPat_cons_false_intro ?_ i3, hasPat_cons_false_intro ?_ i4⟩
  · by_contra hp
    rw [Bool.not_eq_false] at hp
    obtain ⟨r, hr⟩ := pair_isPrefixOf hp
    injection hr with he1 he2
    have hrh : rest.head? = some ' ' := head?_collapseNLAux_zero rest (by rw [he2]; rfl)
    cases rest with
    | nil => simp at hrh
    | cons d rest2 =>
      simp only [List.head?, Option.some.injEq] at hrh
      rw [he1, hrh] at h2
      simp [hasPat, List.isPrefixOf] at h2
  · by_contra hp
    rw [Bool.not_eq_false] at hp
    obtain ⟨r, hr⟩ := pair_isPrefixOf hp
    injection hr with he1 he2
    have hrh : rest.head? = some '\n' := head?_collapseNLAux_zero rest (by rw [he2]; rfl)
    cases rest with
    | nil => simp at hrh
    | cons d rest2 =>
      simp only [List.head?, Option.some.injEq] at hrh
      rw [he1, hrh] at ha
      simp [hasPat, List.isPrefixOf] at ha
  · by_contra hp
    rw [Bool.not_eq_false] at hp
    obtain ⟨r, hr⟩ := pair_isPrefixOf hp
    injection hr with he1 he2
    exact hc he1
  · by_contra hp
    rw [Bool.not_eq_false] at hp
    obtain ⟨r, hr⟩ := triple_isPrefixOf hp
    injection hr with he1 he2
    exact hc he1

theorem collapseNLAux_clean :
    ∀ (x : List Char) (p : Nat),
    hasPat [' ', ' '] x = false → hasPat [' ', '\n'] x = false →
    hasPat ['\n', ' '] x = false →
    (0 < p → x.head? ≠ some ' ') →
    hasPat [' ', ' '] (collapseNLAux p x) = false ∧
    hasPat [' ', '\n'] (collapseNLAux p x) = false ∧
    hasPat ['\n', ' '] (collapseNLAux p x) = false ∧
    hasPat ['\n', '\n', '\n'] (collapseNLAux p x) = false := by
  intro x
  induction x with
  | nil =>
    intro p _ _ _ _
    show _ ∧ _ ∧ _ ∧ _
    have hsp : ' ' ∉ List.replicate (min p 2) '\n' := by
      intro hm
      exact absurd (List.mem_replicate.mp hm).2 (by decide)
    refine ⟨hasPat_mem (by decide : ' ' ∈ [' ', ' ']) hsp,
      hasPat_mem (by decide : ' ' ∈ [' ', '\n']) hsp,
      hasPat_mem (by decide : ' ' ∈ ['\n', ' ']) hsp, ?_⟩
    by_contra hp
    rw [Bool.not_eq_false] at hp
    have hlen := hasPat_length hp
    have hlen2 : (collapseNLAux p []).length = min p 2 := by
      rw [show collapseNLAux p [] = List.replicate (min p 2) '\n' from rfl,
        List.length_replicate]
    rw [hlen2] at hlen
    simp only [List.length] at hlen
    omega
  | cons c rest ih =>
    intro p h2 ha hb hp
    by_cases hc : c = '\n'
    · subst hc
      rw [show collapseNLAux p ('\n' :: rest) = collapseNLAux (p + 1) rest from by
        simp [collapseNLAux]]
      refine ih (p + 1) (hasPat_tail_false h2) (hasPat_tail_false ha)
        (hasPat_tail_false hb) ?_
      intro _ hr
      cases rest with
      | nil => simp at hr
      | cons d rest2 =>
        simp only [List.head?, Option.some.injEq] at hr
        rw [hr] at hb
        simp [hasPat, List.isPrefixOf] at hb
    · rw [show collapseNLAux p (c :: rest) =
        List.replicate (min p 2) '\n' ++ c :: collapseNLAux 0 rest from by
        simp [collapseNLAux, hc]]
      obtain ⟨i1, i2, i3, i4⟩ := ih 0 (hasPat_tail_false h2) (hasPat_tail_false ha)
        (hasPat_tail_false hb) (by intro h0; omega)
      obtain ⟨b1, b2, b3, b4⟩ := collapse_block_clean hc h2 ha i1 i2 i3 i4
      have hcsp : 0 < p → c ≠ ' ' := by
        intro hpp heq
        exact hp hpp (by rw [heq]; rfl)
      have hmin : min p 2 = 0 ∨ min p 2 = 1 ∨ min p 2 = 2 := by omega
      rcases hmin with h0 | h1 | h2m
      · rw [h0]
        exact ⟨b1, b2, b3, b4⟩
      · have hps : 0 < p := by omega
        rw [h1]
        show hasPat _ ('\n' :: c :: collapseNLAux 0 rest) = false ∧ _ ∧ _ ∧ _
        refine ⟨hasPat_cons_false_intro ?_ b1, hasPat_cons_false_intro ?_ b2,
          hasPat_cons_false_intro ?_ b3, hasPat_cons_false_intro ?_ b4⟩
        · by_contra hq
          rw [Bool.not_eq_false] at hq
          obtain ⟨r, hr⟩ := pair_isPrefixOf hq
          injection hr with he1
          exact absurd he1 (by decide)
        · by_contra hq
          rw [Bool.not_eq_false] at hq
          obtain ⟨r, hr⟩ := pair_isPrefixOf hq
          injection hr with he1
          exact absurd he1 (by decide)
        · by_contra hq
          rw [Bool.not_eq_false] at hq
          obtain ⟨r, hr⟩ := pair_isPrefixOf hq
          injection hr with he1 he2
          injection he2 with he3
          exact hcsp hps he3
        · by_contra hq
          rw [Bool.not_eq_false] at hq
          obtain ⟨r, hr⟩ := triple_isPrefixOf hq
          injection hr with he1 he2
          injection he2 with he3
          exact hc he3
      · have hps : 0 < p := by omega
        rw [h2m]
        show hasPat _ ('\n' :: '\n' :: c :: collapseNLAux 0 rest) = false ∧ _ ∧ _ ∧ _
        have inner : hasPat [' ', ' '] ('\n' :: c :: collapseNLAux 0 rest) = false ∧
            hasPat [' ', '\n'] ('\n' :: c :: collapseNLAux 0 rest) = false ∧
            hasPat ['\n', ' '] ('\n' :: c :: collapseNLAux 0 rest) = false ∧
            hasPat ['\n', '\n', '\n'] ('\n' :: c :: collapseNLAux 0 rest) = false := by
          refine ⟨hasPat_cons_false_intro ?_ b1, hasPat_cons_false_intro ?_ b2,
            hasPat_cons_false_intro ?_ b3, hasPat_cons_false_intro ?_ b4⟩
          · by_contra hq
            rw [Bool.not_eq_false] at hq
            obtain ⟨r, hr⟩ := pair_isPrefixOf hq
            injection hr with he1
            exact absurd he1 (by decide)
          · by_contra hq
            rw [Bool.not_eq_false] at hq
            obtain ⟨r, hr⟩ := pair_isPrefixOf hq
            injection hr with he1
            exact absurd he1 (by decide)
          · by_contra hq
            rw [Bool.not_eq_false] at hq
            obtain ⟨r, hr⟩ := pair_isPrefixOf hq
            injection hr with he1 he2
            injection he2 with he3
            exact hcsp hps he3
          · by_contra hq
            rw [Bool.not_eq_false] at hq
            obtain ⟨r, hr⟩ := triple_isPrefixOf hq
            injection hr with he1 he2
            injection he2 with he3
            exact hc he3
        obtain ⟨n1, n2, n3, n4⟩ := inner
        refine ⟨hasPat_cons_false_intro ?_ n1, hasPat_cons_false_intro ?_ n2,
          hasPat_cons_false_intro ?_ n3, hasPat_cons_false_intro ?_ n4⟩
        · by_contra hq
          rw [Bool.not_eq_false] at hq
          obtain ⟨r, hr⟩ := pair_isPrefixOf hq
          injection hr with he1
          exact absurd he1 (by decide)
        · by_contra hq
          rw [Bool.not_eq_false] at hq
          obtain ⟨r, hr⟩ := pair_isPrefixOf hq
          injection hr with he1
          exact absurd he1 (by decide)
        · by_contra hq
          rw [Bool.not_eq_false] at hq
          obtain ⟨r, hr⟩ := pair_isPrefixOf hq
          injection hr with he1 he2
          injection he2 with he3
          exact absurd he3 (by decide)
        · by_contra hq
          rw [Bool.not_eq_false] at hq
          obtain ⟨r, hr⟩ := triple_isPrefixOf hq
          injection hr with he1 he2
          injection he2 with he3 he4
          injection he4 with he5
          exact hc he5

theorem tab_not_mem_detab (s : List Char) : '\t' ∉ detab s := by
  intro hm
  simp only [detab, List.mem_map] at hm
  obtain ⟨c, _, hc⟩ := hm
  by_cases h : c = '\t'
  · rw [if_pos h] at hc
    exact absurd hc (by decide)
  · rw [if_neg h] at hc
    exact h hc

theorem clean_whitespace_clean (s : List Char) :
    '\t' ∉ clean_whitespace s ∧
    hasPat [' ', ' '] (clean_whitespace s) = false ∧
    hasPat ['\n', '\n', '\n'] (clean_whitespace s) = false ∧
    hasPat [' ', '\n'] (clean_whitespace s) = false ∧
    hasPat ['\n', ' '] (clean_whitespace s) = false ∧
    headIsWS (clean_whitespace s) = false ∧
    headIsWS (clean_whitespace s).reverse = false := by
  have hcw : clean_whitespace s =
      pyStrip (collapseNLAux 0 (joinLines ((splitLines (squeezeSpaces (detab s))).map
        pyStrip))) := rfl
  have hqtab : '\t' ∉ squeezeSpaces (detab s) := fun hm =>
    tab_not_mem_detab s (mem_squeezeSpaces hm)
  have hq2 : hasPat [' ', ' '] (squeezeSpaces (detab s)) = false :=
    noDouble_squeezeSpaces _
  have hls_nl : ∀ li ∈ (splitLines (squeezeSpaces (detab s))).map pyStrip,
      '\n' ∉ li := by
    intro li hm hnl
    obtain ⟨line, hline, rfl⟩ := List.mem_map.mp hm
    exact noNl_splitLines hline (mem_pyStrip hnl)
  have hls_dbl : ∀ li ∈ (splitLines (squeezeSpaces (detab s))).map pyStrip,
      hasPat [' ', ' '] li = false := by
    intro li hm
    obtain ⟨line, hline, rfl⟩ := List.mem_map.mp hm
    refine hasPat_pyStrip ?_
    by_contra hcon
    rw [Bool.not_eq_false] at hcon
    obtain ⟨u, v, huv⟩ := mem_splitLines_decomp hline
    rw [huv, hasPat_of_mid u _ v hcon] at hq2
    exact absurd hq2 (by simp)
  have hls_head : ∀ li ∈ (splitLines (squeezeSpaces (detab s))).map pyStrip,
      headIsWS li = false := by
    intro li hm
    obtain ⟨line, hline, rfl⟩ := List.mem_map.mp hm
    exact headIsWS_pyStrip line
  have hls_last : ∀ li ∈ (splitLines (squeezeSpaces (detab s))).map pyStrip,
      headIsWS li.reverse = false := by
    intro li hm
    obtain ⟨line, hline, rfl⟩ := List.mem_map.mp hm
    exact lastIsWS_pyStrip line
  have hls_tab : ∀ li ∈ (splitLines (squeezeSpaces (detab s))).map pyStrip,
      '\t' ∉ li := by
    intro li hm htab
    obtain ⟨line, hline, rfl⟩ := List.mem_map.mp hm
    obtain ⟨u, v, huv⟩ := mem_splitLines_decomp hline
    refine hqtab ?_
    rw [huv]
    simp [mem_pyStrip htab]
  obtain ⟨hJ1, hJ2, hJ3⟩ := joinLines_clean _ hls_nl hls_dbl hls_head hls_last
  have hJtab : '\t' ∉ joinLines ((splitLines (squeezeSpaces (detab s))).map pyStrip) := by
    intro hm
    rcases mem_joinLines hm with he | ⟨li, hmem, hin⟩
    · exact absurd he (by decide)
    · exact hls_tab li hmem hin
  obtain ⟨hK1, hK2, hK3, hK4⟩ := collapseNLAux_clean _ 0 hJ1 hJ2 hJ3 (by omega)
  have hKtab : '\t' ∉ collapseNLAux 0
      (joinLines ((splitLines (squeezeSpaces (detab s))).map pyStrip)) := by
    intro hm
    rcases mem_collapseNLAux _ 0 hm with he | hin
    · exact absurd he (by decide)
    · exact hJtab hin
  rw [hcw]
  exact ⟨fun hm => hKtab (mem_pyStrip hm), hasPat_pyStrip hK1, hasPat_pyStrip hK4,
    hasPat_pyStrip hK2, hasPat_pyStrip hK3, headIsWS_pyStrip _, lastIsWS_pyStrip _⟩

/-- C10: every output of the full normalizer contains no tab, no two
consecutive spaces, no run of three or more newlines, no space adjacent
to a line boundary (so no line has leading or trailing spaces), and no
leading or trailing whitespace on the whole text — the whitespace-
cleanup stage is re-run as the pipeline's final pass, and its output
always has these properties. -/
theorem cleanup_text_whitespace_clean (t : List Char) :
    '\t' ∉ cleanup_text t ∧
    hasPat [' ', ' '] (cleanup_text t) = false ∧
    hasPat ['\n', '\n', '\n'] (cleanup_text t) = false ∧
    hasPat [' ', '\n'] (cleanup_text t) = false ∧
    hasPat ['\n', ' '] (cleanup_text t) = false ∧
    headIsWS (cleanup_text t) = false ∧
    headIsWS (cleanup_text t).reverse = false := by
  unfold cleanup_text
  exact clean_whitespace_clean _
